import Mathlib

/-!  A shallow embedding of the `big_int` fixed-capacity decimal buffer
(`big_int.hpp` / `big_int.cpp`): a little-endian array of base-10 digits with
explicit `length` and `capacity` bookkeeping.  The digit storage is modelled as
a total function `Nat → Nat` (the C array exists only below `capacity`; slots
the C program cannot address are never read by an in-range operation).
`size_t` arithmetic that can actually wrap — the unguarded `length -= 1` in
`shift_right1` — is modelled modulo `2 ^ 64`; guarded decrements happen only on
positive values, where plain `Nat` subtraction coincides with `size_t`. -/

namespace big_int

/-- The specification's error taxonomy.  The C code signals each of these
conditions by taking the corresponding early-return / `return false` branch
(every such branch carries its own `DEBUG_PRINTFLN` message), so the kinds are
observable in the source even though C returns at most a `bool`. -/
inductive Err where
  | InvalidDigit
  | IndexOutOfRange
  | CapacityExceeded
  | Empty
  | UnsupportedOperation
deriving DecidableEq

/-- The C layout `struct BigInt { Digit digits[0x40]; Index length; Index capacity; }`. -/
@[ext]
structure BigInt where
  digits : Nat → Nat
  length : Nat
  capacity : Nat

/-- The fixed storage size: `sizeof(self.digits) / sizeof(self.digits[0]) = 0x40`. -/
def DIGITS_CAP : Nat := 64

/-- A `size_t` decrement: `n - 1` with 64-bit wraparound at zero. -/
def usizeSub1 (n : Nat) : Nat := (n + (2 ^ 64 - 1)) % 2 ^ 64

/-- Source `big_int::create()`: `length = 0`, `capacity = 64`, whole buffer zeroed. -/
def create : BigInt :=
  { digits := fun _ => 0, length := 0, capacity := DIGITS_CAP }

/-- Source `big_int::check_digit(d)`: `0 <= d && d < DIGIT_BASE` (`d` unsigned). -/
def check_digit (d : Nat) : Bool := d < 10

/-- Source `big_int::check_index(self, i)`: `0 <= i && i < self.capacity`
(`i` has type `size_t`, hence never negative). -/
def check_index (b : BigInt) (i : Nat) : Bool := i < b.capacity

/-- Source `big_int::read_at(self, i)`: bounds-checked against `capacity` (not
`length`); any out-of-range index reads as `0`. -/
def read_at (b : BigInt) (i : Nat) : Nat :=
  if check_index b i then b.digits i else 0

/-- Source `big_int::write_at(self, i, d)`: stores `d` — unvalidated — at index `i`
whenever `i < capacity`, growing `length` to `i + 1` when `i >= length`;
returns `false` (the `IndexOutOfRange` report) otherwise. -/
def write_at (b : BigInt) (i d : Nat) : BigInt × Bool :=
  if check_index b i then
    ({ b with
        digits := Function.update b.digits i d,
        length := if b.length ≤ i then i + 1 else b.length }, true)
  else (b, false)

/-- Source `big_int::push_left(self, d)`: append `d` at index `length` (the new
most-significant slot).  The capacity test comes first in the source, then the
digit test; only then does the store-and-increment happen. -/
def push_left (b : BigInt) (d : Nat) : BigInt × Option Err :=
  if b.capacity ≤ b.length then (b, some .CapacityExceeded)
  else if check_digit d then
    ({ b with
        digits := Function.update b.digits b.length d,
        length := b.length + 1 }, none)
  else (b, some .InvalidDigit)

/-- Source `big_int::pop_left(self)`: return `digits[length - 1]` and decrement
`length`; on an empty buffer return `0` without touching the state.  The
vacated slot is NOT cleared. -/
def pop_left (b : BigInt) : BigInt × Nat × Option Err :=
  if b.length = 0 then (b, 0, some .Empty)
  else ({ b with length := b.length - 1 }, b.digits (b.length - 1), none)

/-- Source `big_int::shift_left1(self)`: when `length < capacity`, increment `length`
and move every digit one slot up.  The reverse-iterator loop copies
`digits[j - 1]` into `digits[j]` for `j = length` down to `1`; its final step
targets `digits[0]`, which the trailing `self.digits[0] = 0` overwrites, so
slot `0` ends up `0`.  Slots at and above the new `length` are untouched. -/
def shift_left1 (b : BigInt) : BigInt × Option Err :=
  if b.capacity ≤ b.length then (b, some .CapacityExceeded)
  else
    ({ b with
        digits := fun j =>
          if j = 0 then 0
          else if j ≤ b.length then b.digits (j - 1)
          else b.digits j,
        length := b.length + 1 }, none)

/-- Source `big_int::push_right(self, d)`: after the digit check, the source calls
`shift_left1` and then stores `digits[0] = d` UNCONDITIONALLY — the `bool`
returned by the failed shift is ignored, so on a full buffer the digit at
index 0 is still overwritten. -/
def push_right (b : BigInt) (d : Nat) : BigInt × Option Err :=
  if check_digit d then
    (({ (shift_left1 b).1 with
        digits := Function.update (shift_left1 b).1.digits 0 d }),
     (shift_left1 b).2)
  else (b, some .InvalidDigit)

/-- Source `big_int::shift_right1(self)`: move every digit one slot down
(`digits[i] = digits[i + 1]` for `i < length`), zero `digits[length - 1]`, and
decrement `length`.  There is no emptiness guard: both the zeroed index and
the decrement use `size_t` arithmetic, which wraps at zero. -/
def shift_right1 (b : BigInt) : BigInt :=
  { b with
      digits :=
        Function.update
          (fun j => if j < b.length then b.digits (j + 1) else b.digits j)
          (usizeSub1 b.length) 0,
      length := usizeSub1 b.length }

/-- Source `big_int::pop_right(self)`: return `digits[0]` then `shift_right1`;
guarded so the empty buffer returns `0` unchanged. -/
def pop_right (b : BigInt) : BigInt × Nat × Option Err :=
  if b.length = 0 then (b, 0, some .Empty)
  else (shift_right1 b, b.digits 0, none)

/-- The body of one iteration of `big_int::add_at`'s carry loop, and the loop
itself.  Each iteration computes `sum = read_at(self, idx) + digit`, splits it
into a written digit and a carry (`sum / 10` and `sum % 10` when
`sum >= DIGIT_BASE`, else carry `0`), writes via `write_at`, and either stops
(`carry == 0`), breaks with the capacity report when the write's bounds check
fails (`idx >= capacity`, in which source branch `write_at` has not mutated
anything), or continues at `idx + 1`.  The `fuel` argument only makes the
recursion structural: callers pass `capacity + 1 - idx`, and since every
continuing iteration has `idx < capacity` and moves to `idx + 1`, fuel `0` is
reachable only with `idx > capacity`, where the loop body would fail its very
first write on the unmutated state exactly as the base case does. -/
def add_at_go : Nat → BigInt → Nat → Nat → BigInt × Option Err
  | 0, b, _, _ => (b, some .CapacityExceeded)
  | fuel + 1, b, idx, digit =>
    let sum := read_at b idx + digit
    let dg := if 10 ≤ sum then sum % 10 else sum
    let cy := if 10 ≤ sum then sum / 10 else 0
    if idx < b.capacity then
      let w := (write_at b idx dg).1
      if cy = 0 then (w, none) else add_at_go fuel w (idx + 1) cy
    else (b, some .CapacityExceeded)

/-- Source `big_int::add_at(self, i, d)`: reject `d >= 10` up front (`InvalidDigit`),
then run the carry loop starting at index `i`. -/
def add_at (b : BigInt) (i d : Nat) : BigInt × Option Err :=
  if check_digit d then add_at_go (b.capacity + 1 - i) b i d
  else (b, some .InvalidDigit)

/-- Follows the spec's words for the carry step, to be compared with the
source's `add_at_go`: "Each step: `sum = read_at(idx) + carry_in`;
`digit = sum mod 10`; `carry_out = sum div 10`; write `digit` at `idx`;
advance `idx`; stop when `carry_out == 0`" — the mod/div split is taken
unconditionally instead of under the source's `sum >= DIGIT_BASE` test. -/
def spec_add_at_go : Nat → BigInt → Nat → Nat → BigInt × Option Err
  | 0, b, _, _ => (b, some .CapacityExceeded)
  | fuel + 1, b, idx, digit =>
    let sum := read_at b idx + digit
    let dg := sum % 10
    let cy := sum / 10
    if idx < b.capacity then
      let w := (write_at b idx dg).1
      if cy = 0 then (w, none) else spec_add_at_go fuel w (idx + 1) cy
    else (b, some .CapacityExceeded)

/-- Follows the spec's words: `add_at` with the unconditional mod/div step. -/
def spec_add_at (b : BigInt) (i d : Nat) : BigInt × Option Err :=
  if check_digit d then spec_add_at_go (b.capacity + 1 - i) b i d
  else (b, some .InvalidDigit)

/-- The digit loop of `big_int::add`: while `next != 0`, peel off
`next % DIGIT_BASE`, call `add_at` at the current index (whose failure report
the source ignores and this model records), and continue with `next / 10` at
`idx + 1`.  `fuel` makes the recursion structural; callers pass `next` itself,
and `next / 10 < next` keeps `next <= fuel` invariant, so fuel `0` is reached
only with `next = 0` — the loop's own exit. -/
def add_go : Nat → BigInt → Nat → Nat → BigInt × Option Err
  | 0, b, _, _ => (b, none)
  | fuel + 1, b, next, idx =>
    if next = 0 then (b, none)
    else
      let r := add_at b idx (next % 10)
      let s := add_go fuel r.1 (next / 10) (idx + 1)
      (s.1, r.2.orElse (fun _ => s.2))

/-- Source `big_int::add(self, n)`: negative `n` is rejected without touching the
buffer; otherwise the base-10 digits of `n` are added least-significant
first at indices `0, 1, 2, ...`. -/
def add (b : BigInt) (n : Int) : BigInt × Option Err :=
  if n < 0 then (b, some .UnsupportedOperation)
  else add_go n.toNat b n.toNat 0

/-- The `std::isspace` test in the default locale: space, `\t`, `\n`, `\v`, `\f`,
`\r`. -/
def c_isspace (c : Char) : Bool :=
  c = ' ' || c = '\t' || c = '\n' || c = '\x0B' || c = '\x0C' || c = '\r'

/-- The separator test of `big_int::copy_string`'s loop:
`std::isspace(ch) || ch == '_'`. -/
def is_sep (c : Char) : Bool := c_isspace c || c = '_'

/-- The conversion `ch - '0'` truncated to `Digit` (`uint8_t`); for `'0'..'9'` this is the
digit value `0..9`. -/
def digit_of_char (c : Char) : Nat := (c.toNat + 208) % 256

/-- Source `big_int::copy_string(sv)`: start from `create()`, scan the text from its
last character to its first, skip separators, and `push_left` every other
character's digit value (ignoring `push_left`'s success flag). -/
def copy_string (s : List Char) : BigInt :=
  s.reverse.foldl
    (fun b c => if is_sep c then b else (push_left b (digit_of_char c)).1)
    create

/-- Source `big_int::print(self)`, as the stream of characters emitted for the digit
buffer: the reverse-iterator loop prints `digits[length - 1]` down to
`digits[0]`, each through `printf("%u", ...)` (its decimal form). -/
def print (b : BigInt) : List Char :=
  ((List.range b.length).map
    (fun k => Nat.toDigits 10 (b.digits (b.length - 1 - k)))).flatten

/-- Definition `valueAux f n = f 0 * 10^0 + ... + f (n-1) * 10^(n-1)`. -/
def valueAux (f : Nat → Nat) : Nat → Nat
  | 0 => 0
  | n + 1 => valueAux f n + f n * 10 ^ n

/-- The number represented by the whole addressable buffer: little-endian
base-10 over all `capacity` slots (`read_at`, and hence the arithmetic,
addresses every slot below `capacity`, not just those below `length`). -/
def value (b : BigInt) : Nat := valueAux b.digits b.capacity

lemma valueAux_congr {f g : Nat → Nat} :
    ∀ n, (∀ j, j < n → f j = g j) → valueAux f n = valueAux g n := by
  intro n
  induction n with
  | zero => intro _; rfl
  | succ k ih =>
    intro h
    simp only [valueAux]
    rw [ih (fun j hj => h j (Nat.lt_succ_of_lt hj)), h k (Nat.lt_succ_self k)]

lemma valueAux_update {f : Nat → Nat} {i d : Nat} :
    ∀ n, i < n →
      valueAux (Function.update f i d) n + f i * 10 ^ i
        = valueAux f n + d * 10 ^ i := by
  intro n
  induction n with
  | zero => omega
  | succ k ih =>
    intro hi
    rcases Nat.lt_succ_iff_lt_or_eq.mp hi with hk | hk
    · have hne : i ≠ k := Nat.ne_of_lt hk
      simp only [valueAux, Function.update_noteq (Ne.symm hne)]
      have := ih hk
      ring_nf
      ring_nf at this
      omega
    · subst hk
      have hagree : valueAux (Function.update f i d) i = valueAux f i :=
        valueAux_congr i (fun j hj =>
          Function.update_noteq (Nat.ne_of_lt hj) _ _)
      simp only [valueAux, hagree, Function.update_same]
      ring

lemma write_at_capacity (b : BigInt) (i d : Nat) :
    (write_at b i d).1.capacity = b.capacity := by
  unfold write_at
  split <;> rfl

lemma write_at_digits_of_lt (b : BigInt) {i : Nat} (d : Nat)
    (h : i < b.capacity) :
    (write_at b i d).1.digits = Function.update b.digits i d := by
  unfold write_at check_index
  simp [h]

lemma value_write (b : BigInt) {i : Nat} (d : Nat) (h : i < b.capacity) :
    value (write_at b i d).1 + b.digits i * 10 ^ i
      = value b + d * 10 ^ i := by
  unfold value
  rw [write_at_capacity, write_at_digits_of_lt b d h]
  exact valueAux_update b.capacity h

/-- Carry-loop invariant: a run of the loop that terminates with carry `0`
(no capacity break) adds exactly `digit * 10 ^ idx` to the represented
number. -/
lemma add_at_go_value :
    ∀ fuel b idx digit, (add_at_go fuel b idx digit).2 = none →
      value (add_at_go fuel b idx digit).1 = value b + digit * 10 ^ idx := by
  intro fuel
  induction fuel with
  | zero => intro b idx digit h; simp [add_at_go] at h
  | succ f ih =>
    intro b idx digit h
    simp only [add_at_go] at h ⊢
    by_cases hidx : idx < b.capacity
    · simp only [if_pos hidx] at h ⊢
      have hread : read_at b idx = b.digits idx := by
        unfold read_at check_index; simp [hidx]
      set sum := read_at b idx + digit with hsum
      by_cases hcy : (if 10 ≤ sum then sum / 10 else 0) = 0
      · simp only [if_pos hcy] at h ⊢
        -- final step: the written digit is the whole sum
        have hlt : sum < 10 := by
          by_cases h10 : 10 ≤ sum
          · simp only [if_pos h10] at hcy; omega
          · omega
        have hdg : (if 10 ≤ sum then sum % 10 else sum) = sum := by
          simp [Nat.not_le.mpr hlt]
        rw [hdg]
        have hw := value_write b sum hidx
        have : sum = b.digits idx + digit := by rw [hsum, hread]
        -- cancel the old digit contribution
        have key : value (write_at b idx sum).1 + b.digits idx * 10 ^ idx
            = (value b + digit * 10 ^ idx) + b.digits idx * 10 ^ idx := by
          rw [hw, this]; ring
        exact Nat.add_right_cancel key
      · simp only [if_neg hcy] at h ⊢
        set dg := if 10 ≤ sum then sum % 10 else sum with hdg
        set cy := if 10 ≤ sum then sum / 10 else 0 with hcy2
        have hsplit : dg + 10 * cy = sum := by
          by_cases h10 : 10 ≤ sum
          · simp only [hdg, hcy2, if_pos h10]; omega
          · simp only [hdg, hcy2, if_neg h10]; omega
        have hrec := ih (write_at b idx dg).1 (idx + 1) cy h
        have hw := value_write b dg hidx
        have hsum2 : sum = b.digits idx + digit := by rw [hsum, hread]
        have key : value (add_at_go f (write_at b idx dg).1 (idx + 1) cy).1
              + b.digits idx * 10 ^ idx
            = (value b + digit * 10 ^ idx) + b.digits idx * 10 ^ idx := by
          rw [hrec, pow_succ]
          calc value (write_at b idx dg).1 + cy * (10 ^ idx * 10)
                + b.digits idx * 10 ^ idx
              = (value (write_at b idx dg).1 + b.digits idx * 10 ^ idx)
                + 10 * cy * 10 ^ idx := by ring
            _ = value b + dg * 10 ^ idx + 10 * cy * 10 ^ idx := by rw [hw]
            _ = value b + (dg + 10 * cy) * 10 ^ idx := by ring
            _ = value b + (b.digits idx + digit) * 10 ^ idx := by
                rw [hsplit, hsum2]
            _ = (value b + digit * 10 ^ idx) + b.digits idx * 10 ^ idx := by
                ring
        exact Nat.add_right_cancel key
    · simp only [if_neg hidx] at h
      exact absurd h (by simp)

/-- An `add_at` call without a failure report adds `d * 10 ^ i`. -/
lemma add_at_value {b : BigInt} {i d : Nat} (h : (add_at b i d).2 = none) :
    value (add_at b i d).1 = value b + d * 10 ^ i := by
  unfold add_at at h ⊢
  by_cases hd : check_digit d = true
  · rw [if_pos hd] at h ⊢; exact add_at_go_value _ b i d h
  · rw [if_neg hd] at h; simp at h

/-- The source's guarded split (`sum >= 10` case only) computes the same
digit/carry as the spec's unconditional `mod`/`div`. -/
lemma add_at_go_eq_spec :
    ∀ fuel b idx digit,
      add_at_go fuel b idx digit = spec_add_at_go fuel b idx digit := by
  intro fuel
  induction fuel with
  | zero => intro b idx digit; rfl
  | succ f ih =>
    intro b idx digit
    simp only [add_at_go, spec_add_at_go]
    set sum := read_at b idx + digit with hsum
    have hdg : (if 10 ≤ sum then sum % 10 else sum) = sum % 10 := by
      by_cases h10 : 10 ≤ sum
      · simp [h10]
      · simp only [if_neg h10]; omega
    have hcy : (if 10 ≤ sum then sum / 10 else 0) = sum / 10 := by
      by_cases h10 : 10 ≤ sum
      · simp [h10]
      · simp only [if_neg h10]; omega
    rw [hdg, hcy, ih]

/-- C1: for a buffer of valid digits and a valid digit `d`, whenever
`add_at(i, d)`'s carry chain stays within capacity (no failure report), the
represented number grows by exactly `d * 10 ^ i`; and the loop is, step for
step, the spec's `sum = read_at(idx) + carry_in`, write `sum mod 10`,
carry `sum div 10`, stop on carry `0`. -/
theorem C1_add_at_adds :
    (∀ b i d, add_at b i d = spec_add_at b i d) ∧
    (∀ b i d, (∀ j, j < b.capacity → b.digits j < 10) → d < 10 →
      (add_at b i d).2 = none →
      value (add_at b i d).1 = value b + d * 10 ^ i) := by
  constructor
  · intro b i d
    unfold add_at spec_add_at
    rw [add_at_go_eq_spec]
  · intro b i d _ _ h
    exact add_at_value h

/-- C1 witness: adding digit `3` at index `0` of the empty buffer. -/
theorem C1_add_at_adds_witness :
    value (add_at create 0 3).1 = value create + 3 * 10 ^ 0 :=
  C1_add_at_adds.2 create 0 3
    (fun j _ => by simp [create]) (by decide) (by decide)

/-- Digit-loop invariant of `add`: a run with no failure report adds exactly
`next * 10 ^ idx`. -/
lemma add_go_value :
    ∀ fuel next b idx, next ≤ fuel → (add_go fuel b next idx).2 = none →
      value (add_go fuel b next idx).1 = value b + next * 10 ^ idx := by
  intro fuel
  induction fuel with
  | zero =>
    intro next b idx hle h
    interval_cases next
    simp [add_go]
  | succ f ih =>
    intro next b idx hle h
    by_cases h0 : next = 0
    · subst h0; simp [add_go]
    · simp only [add_go, if_neg h0] at h ⊢
      have hsplit :
          (add_at b idx (next % 10)).2.orElse
              (fun _ => (add_go f (add_at b idx (next % 10)).1
                (next / 10) (idx + 1)).2) = none →
            (add_at b idx (next % 10)).2 = none ∧
              (add_go f (add_at b idx (next % 10)).1
                (next / 10) (idx + 1)).2 = none := by
        cases hcase : (add_at b idx (next % 10)).2 with
        | none => intro hh; exact ⟨rfl, by simpa [Option.orElse] using hh⟩
        | some e => intro hh; simp [Option.orElse] at hh
      obtain ⟨h1, h2⟩ := hsplit h
      have hv1 := add_at_value h1
      have hv2 := ih (next / 10) (add_at b idx (next % 10)).1 (idx + 1)
        (by omega) h2
      rw [hv2, hv1, pow_succ]
      have : next % 10 * 10 ^ idx + next / 10 * (10 ^ idx * 10)
          = next * 10 ^ idx := by
        calc next % 10 * 10 ^ idx + next / 10 * (10 ^ idx * 10)
            = (next % 10 + 10 * (next / 10)) * 10 ^ idx := by ring
          _ = next * 10 ^ idx := by rw [Nat.mod_add_div]
      omega

/-- C3: `add(n)` peels the base-10 digits of a non-negative `n` least
significant first and feeds them to `add_at` at indices `0, 1, 2, ...`; when
no capacity failure is reported the represented value grows by exactly `n`;
negative `n` is rejected with `UnsupportedOperation`, the buffer untouched;
and from `create()`, `add(1234)` represents `1234` and a further `add(2)`
represents `1236`. -/
theorem C3_add_correct :
    (∀ (b : BigInt) (n : Int), 0 ≤ n → (add b n).2 = none →
      value (add b n).1 = value b + n.toNat) ∧
    (∀ (b : BigInt) (n : Int), n < 0 →
      add b n = (b, some Err.UnsupportedOperation)) ∧
    value (add create 1234).1 = 1234 ∧
    value (add (add create 1234).1 2).1 = 1236 := by
  refine ⟨?_, ?_, by decide, by decide⟩
  · intro b n hn h
    unfold add at h ⊢
    rw [if_neg (by omega)] at h ⊢
    have := add_go_value n.toNat n.toNat b 0 (le_refl _) h
    simpa using this
  · intro b n hn
    unfold add
    rw [if_pos hn]

/-- C3 witness: `add 5` on the empty buffer succeeds and adds `5`. -/
theorem C3_add_correct_witness :
    value (add create 5).1 = value create + (5 : Int).toNat :=
  C3_add_correct.1 create 5 (by decide) (by decide)

/-- Carry-loop run that overflows: starting inside capacity with a digit sum
that carries (`10 <= sum < 20`) and nothing but `9`s above, every slot up to
`capacity` is rewritten (the start slot to `sum % 10`, the rest to `0`) before
the failed bounds check stops the loop with the capacity report; the mutated
buffer undershoots the intended result by exactly `10 ^ capacity`. -/
lemma add_at_go_nines :
    ∀ fuel b idx digit,
      idx + fuel = b.capacity + 1 →
      idx < b.capacity →
      10 ≤ b.digits idx + digit →
      b.digits idx + digit < 20 →
      (∀ j, j < b.capacity → idx < j → b.digits j = 9) →
      (add_at_go fuel b idx digit).2 = some Err.CapacityExceeded ∧
      (add_at_go fuel b idx digit).1.capacity = b.capacity ∧
      (add_at_go fuel b idx digit).1.digits idx
        = (b.digits idx + digit) % 10 ∧
      (∀ j, j < b.capacity → idx < j →
        (add_at_go fuel b idx digit).1.digits j = 0) ∧
      (∀ j, j < idx → (add_at_go fuel b idx digit).1.digits j = b.digits j) ∧
      value (add_at_go fuel b idx digit).1 + 10 ^ b.capacity
        = value b + digit * 10 ^ idx := by
  intro fuel
  induction fuel with
  | zero => intro b idx digit hfuel hidx _ _ _; omega
  | succ f ih =>
    intro b idx digit hfuel hidx hsum10 hsum20 h9
    have hread : read_at b idx = b.digits idx := by
      unfold read_at check_index; simp [hidx]
    have hsum : read_at b idx + digit = b.digits idx + digit := by rw [hread]
    simp only [add_at_go, if_pos hidx]
    rw [hsum]
    set D := b.digits idx with hD
    set sum := D + digit with hsumdef
    have h10 : 10 ≤ sum := hsum10
    have hdg : (if 10 ≤ sum then sum % 10 else sum) = sum % 10 := by
      simp [h10]
    have hcy : (if 10 ≤ sum then sum / 10 else 0) = 1 := by
      rw [if_pos h10]; omega
    rw [hdg, hcy]
    simp only [if_neg (by omega : ¬ (1 : Nat) = 0)]
    set w := (write_at b idx (sum % 10)).1 with hw
    have hwcap : w.capacity = b.capacity := write_at_capacity b idx (sum % 10)
    have hwdig : w.digits = Function.update b.digits idx (sum % 10) :=
      write_at_digits_of_lt b (sum % 10) hidx
    have hwval : value w + D * 10 ^ idx = value b + sum % 10 * 10 ^ idx :=
      value_write b (sum % 10) hidx
    by_cases hend : idx + 1 = b.capacity
    · -- the very next write is out of range: one more loop entry, then break
      have hf : f = 1 := by omega
      subst hf
      have hnotlt : ¬ idx + 1 < w.capacity := by omega
      have hres : add_at_go 1 w (idx + 1) 1 = (w, some Err.CapacityExceeded) := by
        simp only [add_at_go, if_neg hnotlt]
      rw [hres]
      refine ⟨rfl, hwcap, ?_, ?_, ?_, ?_⟩
      · rw [hwdig]; simp
      · intro j _ hj2; omega
      · intro j hj; rw [hwdig]; exact Function.update_noteq (by omega) _ _
      · have key : (value w + 10 ^ b.capacity) + D * 10 ^ idx
            = (value b + digit * 10 ^ idx) + D * 10 ^ idx := by
          calc (value w + 10 ^ b.capacity) + D * 10 ^ idx
              = (value w + D * 10 ^ idx) + 10 ^ b.capacity := by ring
            _ = value b + sum % 10 * 10 ^ idx + 10 ^ b.capacity := by
                rw [hwval]
            _ = value b + sum % 10 * 10 ^ idx + 10 ^ (idx + 1) := by
                rw [hend]
            _ = value b + (sum % 10 + 10) * 10 ^ idx := by
                rw [pow_succ]; ring
            _ = value b + (D + digit) * 10 ^ idx := by
                congr 2; omega
            _ = (value b + digit * 10 ^ idx) + D * 10 ^ idx := by ring
        exact Nat.add_right_cancel key
    · -- the chain continues into the next all-nines slot
      have hlt : idx + 1 < b.capacity := by omega
      have hw9 : w.digits (idx + 1) = 9 := by
        rw [hwdig, Function.update_noteq (by omega)]
        exact h9 (idx + 1) hlt (by omega)
      have ihr := ih w (idx + 1) 1
        (by omega)
        (by omega)
        (by rw [hw9])
        (by rw [hw9]; omega)
        (by
          intro j hj hj2
          rw [hwcap] at hj
          rw [hwdig, Function.update_noteq (by omega)]
          exact h9 j hj (by omega))
      obtain ⟨he, hc, hd1, hd0, hdlo, hv⟩ := ihr
      rw [hwcap] at hd0 hv
      refine ⟨he, by rw [hc]; exact hwcap, ?_, ?_, ?_, ?_⟩
      · rw [hdlo idx (by omega), hwdig]; simp
      · intro j hj hj2
        rcases Nat.lt_or_ge (idx + 1) j with hj3 | hj3
        · exact hd0 j hj hj3
        · have : j = idx + 1 := by omega
          subst this
          rw [hd1, hw9]
      · intro j hj
        rw [hdlo j (by omega), hwdig,
          Function.update_noteq (by omega)]
      · have key : (value (add_at_go f w (idx + 1) 1).1 + 10 ^ b.capacity)
              + D * 10 ^ idx
            = (value b + digit * 10 ^ idx) + D * 10 ^ idx := by
          calc (value (add_at_go f w (idx + 1) 1).1 + 10 ^ b.capacity)
                + D * 10 ^ idx
              = (value w + 1 * 10 ^ (idx + 1)) + D * 10 ^ idx := by rw [hv]
            _ = (value w + D * 10 ^ idx) + 10 * 10 ^ idx := by
                rw [pow_succ]; ring
            _ = value b + sum % 10 * 10 ^ idx + 10 * 10 ^ idx := by
                rw [hwval]
            _ = value b + (sum % 10 + 10) * 10 ^ idx := by ring
            _ = value b + (D + digit) * 10 ^ idx := by congr 2; omega
            _ = (value b + digit * 10 ^ idx) + D * 10 ^ idx := by ring
        exact Nat.add_right_cancel key

/-- C2: when `add_at(i, d)`'s carry chain runs past `capacity` — inside a
valid-digit buffer this happens exactly when the start sum carries and every
higher slot holds `9` — the call reports `CapacityExceeded` and the digits
written before the failed bounds check stay mutated: slot `i` holds
`(digits[i] + d) mod 10`, every higher slot holds `0`, lower slots are intact,
and the stored number differs from the intended result (by `10 ^ capacity`),
i.e. the buffer is partially updated, not rolled back. -/
theorem C2_add_at_partial_on_overflow :
    ∀ b i d,
      (∀ j, j < b.capacity → b.digits j < 10) →
      d < 10 →
      i < b.capacity →
      10 ≤ b.digits i + d →
      (∀ j, j < b.capacity → i < j → b.digits j = 9) →
      (add_at b i d).2 = some Err.CapacityExceeded ∧
      (add_at b i d).1.digits i = (b.digits i + d) % 10 ∧
      (∀ j, j < b.capacity → i < j → (add_at b i d).1.digits j = 0) ∧
      (∀ j, j < i → (add_at b i d).1.digits j = b.digits j) ∧
      value (add_at b i d).1 + 10 ^ b.capacity = value b + d * 10 ^ i ∧
      value (add_at b i d).1 ≠ value b + d * 10 ^ i := by
  intro b i d hvalid hd hi hsum h9
  have hD : b.digits i < 10 := hvalid i hi
  unfold add_at
  rw [if_pos (by simpa [check_digit] using hd)]
  have hmain := add_at_go_nines (b.capacity + 1 - i) b i d
    (by omega) hi hsum (by omega) h9
  obtain ⟨he, _, hd1, hd0, hdlo, hv⟩ := hmain
  refine ⟨he, hd1, hd0, hdlo, hv, ?_⟩
  intro heq
  rw [heq] at hv
  have hpos : 0 < 10 ^ b.capacity := Nat.pos_pow_of_pos _ (by omega)
  omega

/-- A two-slot buffer holding `99`: the smallest state on which `add_at`'s
carry chain can run off the end. -/
def twoNines : BigInt :=
  { digits := fun j => if j < 2 then 9 else 0, length := 2, capacity := 2 }

/-- C2 witness: on the `99` buffer, `add_at(0, 5)` overflows, reports the
capacity failure, and leaves value `4` instead of the intended `104`. -/
theorem C2_add_at_partial_on_overflow_witness :
    (add_at twoNines 0 5).2 = some Err.CapacityExceeded ∧
    value (add_at twoNines 0 5).1 ≠ value twoNines + 5 * 10 ^ 0 := by
  have h := C2_add_at_partial_on_overflow twoNines
    0 5 (by decide) (by decide) (by decide) (by decide) (by decide)
  exact ⟨h.1, h.2.2.2.2.2⟩

/-- C8: `push_low` (= `push_left`) on a full buffer is a no-op reporting the
capacity failure (checked first in the source); a non-full buffer rejects an
invalid digit as a no-op; otherwise the digit is stored at index `length` —
the new most-significant slot — and only `length` changes besides it. -/
theorem C8_push_low_cases :
    ∀ b d,
      (b.capacity ≤ b.length →
        push_left b d = (b, some Err.CapacityExceeded)) ∧
      (b.length < b.capacity → 10 ≤ d →
        push_left b d = (b, some Err.InvalidDigit)) ∧
      (b.length < b.capacity → d < 10 →
        push_left b d
          = ({ b with
                digits := Function.update b.digits b.length d,
                length := b.length + 1 }, none)) := by
  intro b d
  refine ⟨?_, ?_, ?_⟩
  · intro h
    unfold push_left
    rw [if_pos h]
  · intro h1 h2
    unfold push_left check_digit
    rw [if_neg (by omega), if_neg (by simpa using (by omega : ¬ d < 10))]
  · intro h1 h2
    unfold push_left check_digit
    rw [if_neg (by omega), if_pos (by simpa using h2)]

/-- C8 witness: pushing digit `5` onto the fresh empty buffer succeeds. -/
theorem C8_push_low_cases_witness :
    push_left create 5
      = ({ create with
            digits := Function.update create.digits create.length 5,
            length := create.length + 1 }, none) :=
  (C8_push_low_cases create 5).2.2 (by decide) (by decide)

/-- A one-digit buffer holding `7` (as produced by `create` then
`push_left 7`). -/
def oneSeven : BigInt :=
  { digits := fun j => if j = 0 then 7 else 0, length := 1, capacity := 64 }

/-- C10: `pop_high` (= `pop_left`) returns `digits[length - 1]` and shrinks
`length` without clearing the vacated slot: the slot still holds the popped
digit and `read_at` at that index — now `>= length` but `< capacity` — still
returns it (so non-zero when the digit was), because `read_at` bounds-checks
against `capacity`, not `length`. -/
theorem C10_pop_high_leaves_stale_slot :
    ∀ b : BigInt, 0 < b.length → b.length ≤ b.capacity →
      (pop_left b).2.1 = b.digits (b.length - 1) ∧
      (pop_left b).1.digits (b.length - 1) = b.digits (b.length - 1) ∧
      (pop_left b).1.length = b.length - 1 ∧
      read_at (pop_left b).1 (b.length - 1) = b.digits (b.length - 1) ∧
      (b.digits (b.length - 1) ≠ 0 →
        read_at (pop_left b).1 (b.length - 1) ≠ 0) := by
  intro b h1 h2
  have hne : ¬ b.length = 0 := by omega
  have hread : read_at (pop_left b).1 (b.length - 1)
      = b.digits (b.length - 1) := by
    unfold pop_left read_at check_index
    rw [if_neg hne]
    simp only []
    rw [if_pos (by simpa using (by omega : b.length - 1 < b.capacity))]
  refine ⟨?_, ?_, ?_, hread, ?_⟩
  · unfold pop_left; rw [if_neg hne]
  · unfold pop_left; rw [if_neg hne]
  · unfold pop_left; rw [if_neg hne]
  · intro h0; rw [hread]; exact h0

/-- C10 witness: popping the one-digit buffer `7`. -/
theorem C10_pop_high_leaves_stale_slot_witness :
    (pop_left oneSeven).2.1 = oneSeven.digits (oneSeven.length - 1) ∧
    (pop_left oneSeven).1.digits (oneSeven.length - 1)
        = oneSeven.digits (oneSeven.length - 1) ∧
    (pop_left oneSeven).1.length = oneSeven.length - 1 ∧
    read_at (pop_left oneSeven).1 (oneSeven.length - 1)
        = oneSeven.digits (oneSeven.length - 1) ∧
    (oneSeven.digits (oneSeven.length - 1) ≠ 0 →
      read_at (pop_left oneSeven).1 (oneSeven.length - 1) ≠ 0) :=
  C10_pop_high_leaves_stale_slot oneSeven (by decide) (by decide)

/-- C7 counterexample: `write_at(0, 42)` on the fresh buffer is accepted —
`write_at` never validates the digit — so the claimed `InvalidDigit` no-op is
false: the call succeeds, stores `42` (outside `[0,10)`), and mutates the
buffer. -/
theorem C7_write_at_accepts_invalid_digit :
    (write_at create 0 42).2 = true ∧
    (write_at create 0 42).1.digits 0 = 42 ∧
    (write_at create 0 42).1 ≠ create := by
  refine ⟨by decide, by decide, ?_⟩
  intro h
  exact absurd (congrArg (fun s => s.digits 0) h) (by decide)

/-- C7 (amended): `write_at(i, d)` validates only the index: for
`i < capacity` it stores `d` unchecked at `i` and grows `length` to `i + 1`
when `i >= length`; for `i >= capacity` it reports the failure
(`IndexOutOfRange`, the `false` return) leaving the buffer unchanged; it never
changes `capacity`; and stored digits stay in `[0, 10)` only provided the
written `d` itself is. -/
theorem C7_write_at_corrected :
    ∀ b i d,
      (i < b.capacity →
        write_at b i d
          = ({ b with
                digits := Function.update b.digits i d,
                length := if b.length ≤ i then i + 1 else b.length },
             true)) ∧
      (b.capacity ≤ i → write_at b i d = (b, false)) ∧
      (write_at b i d).1.capacity = b.capacity ∧
      ((∀ j, j < b.capacity → b.digits j < 10) → d < 10 →
        ∀ j, j < b.capacity → (write_at b i d).1.digits j < 10) := by
  intro b i d
  refine ⟨?_, ?_, write_at_capacity b i d, ?_⟩
  · intro h
    unfold write_at check_index
    rw [if_pos (by simpa using h)]
  · intro h
    unfold write_at check_index
    rw [if_neg (by simpa using (by omega : ¬ i < b.capacity))]
  · intro hall hd j hj
    unfold write_at check_index
    split
    · simp only []
      by_cases hji : j = i
      · subst hji; rw [Function.update_same]; exact hd
      · rw [Function.update_noteq hji]; exact hall j hj
    · exact hall j hj

/-- C7 witness: an in-range write of digit `5` at index `0`. -/
theorem C7_write_at_corrected_witness :
    write_at create 0 5
      = ({ create with
            digits := Function.update create.digits 0 5,
            length := if create.length ≤ 0 then 0 + 1 else create.length },
         true) :=
  (C7_write_at_corrected create 0 5).1 (by decide)

/-- The full 64-digit buffer of `1`s, reached by parsing 64 `'1'`
characters. -/
def fullOnes : BigInt := copy_string (List.replicate 64 '1')

set_option maxRecDepth 8192 in
/-- C5 counterexample: on a full buffer, `push_right` does report the
capacity failure of its internal shift — but it ignores that failure and
still executes `digits[0] = d`, so the buffer is NOT left unmodified. -/
theorem C5_push_high_mutates_full_buffer :
    (push_right fullOnes 5).2 = some Err.CapacityExceeded ∧
    (push_right fullOnes 5).1.digits 0 = 5 ∧
    (push_right fullOnes 5).1 ≠ fullOnes := by
  refine ⟨by decide, by decide, ?_⟩
  intro h
  exact absurd (congrArg (fun s => s.digits 0) h) (by decide)

/-- C5 (amended): `push_high` (= `push_right`) is `shift_up` followed by
writing `d` at index 0.  When the shift would need `length + 1 > capacity` it
fails with the capacity report and leaves `length` (and every slot other than
index 0) unchanged — but the digit at index 0 is still overwritten with `d`,
because the source discards `shift_left1`'s failure flag. -/
theorem C5_push_high_corrected :
    ∀ b d, d < 10 →
      (b.capacity ≤ b.length →
        push_right b d
          = ({ b with digits := Function.update b.digits 0 d },
             some Err.CapacityExceeded)) ∧
      (b.length < b.capacity →
        push_right b d
          = ({ b with
                digits := Function.update
                  (fun j => if j = 0 then 0
                    else if j ≤ b.length then b.digits (j - 1)
                    else b.digits j) 0 d,
                length := b.length + 1 }, none)) := by
  intro b d hd
  have hcd : check_digit d = true := by simpa [check_digit] using hd
  constructor
  · intro h
    unfold push_right shift_left1
    rw [if_pos hcd, if_pos h]
  · intro h
    unfold push_right shift_left1
    rw [if_pos hcd, if_neg (by omega)]

/-- C5 witness: a successful `push_right 5` on the empty buffer. -/
theorem C5_push_high_corrected_witness :
    push_right create 5
      = ({ create with
            digits := Function.update
              (fun j => if j = 0 then 0
                else if j ≤ create.length then create.digits (j - 1)
                else create.digits j) 0 5,
            length := create.length + 1 }, none) :=
  (C5_push_high_corrected create 5 (by decide)).2 (by decide)

/-- C6: the code bug, evaluated.  `shift_down` (= `shift_right1`) has no
emptiness guard; on the fresh empty buffer its `size_t` decrement wraps
`length` from `0` to `2^64 - 1`, far above `capacity = 64`, violating the
documented invariant `0 <= length <= capacity` instead of being a no-op. -/
theorem C6_shift_down_empty_wraps_length :
    (shift_right1 create).length = 2 ^ 64 - 1 ∧
    create.length = 0 ∧
    (shift_right1 create).capacity < (shift_right1 create).length := by
  refine ⟨?_, rfl, ?_⟩ <;> decide

/-- A buffer with a stale non-zero slot above `length`: slot 0 holds `7` but
`length = 0` (exactly what `push_left 7` then `pop_left` produces). -/
def staleBuf : BigInt :=
  { digits := fun j => if j = 0 then 7 else 0, length := 0, capacity := 64 }

/-- C9 counterexample: `shift_down(shift_up(b))` does NOT restore every digit
slot: on a buffer whose (stale) slot at index `length` is non-zero, the
round trip zeroes that slot. -/
theorem C9_roundtrip_zeroes_stale_slot :
    shift_right1 (shift_left1 staleBuf).1 ≠ staleBuf := fun h =>
  absurd (congrArg (fun s => s.digits 0) h) (by decide)

/-- C9 (amended): for `length < capacity` (and a machine-representable
`length`), `shift_down(shift_up(b))` restores `length`, `capacity`, and every
digit slot except the one at index `length`, which is zeroed — so the round
trip restores `b` exactly precisely when that slot already held `0`. -/
theorem C9_roundtrip_corrected :
    ∀ b : BigInt, b.length < b.capacity → b.length < 2 ^ 64 →
      shift_right1 (shift_left1 b).1
          = { b with digits := Function.update b.digits b.length 0 } ∧
      (b.digits b.length = 0 → shift_right1 (shift_left1 b).1 = b) := by
  intro b h1 h2
  have hup : (shift_left1 b).1
      = { b with
            digits := fun j =>
              if j = 0 then 0
              else if j ≤ b.length then b.digits (j - 1)
              else b.digits j,
            length := b.length + 1 } := by
    unfold shift_left1
    rw [if_neg (by omega)]
  have hsub : usizeSub1 (b.length + 1) = b.length := by
    unfold usizeSub1; omega
  have hmain : shift_right1 (shift_left1 b).1
      = { b with digits := Function.update b.digits b.length 0 } := by
    rw [hup]
    unfold shift_right1
    simp only [hsub]
    refine BigInt.ext ?_ rfl rfl
    funext j
    dsimp only
    by_cases hj : j = b.length
    · subst hj
      rw [Function.update_same, Function.update_same]
    · rw [Function.update_noteq hj, Function.update_noteq hj]
      rcases Nat.lt_or_ge j b.length with hlt | hge
      · rw [if_pos (by omega)]
        rw [if_neg (by omega), if_pos (by omega)]
        simp
      · rw [if_neg (by omega)]
        rw [if_neg (by omega), if_neg (by omega)]
  refine ⟨hmain, ?_⟩
  intro h0
  rw [hmain, ← h0, Function.update_eq_self]

/-- C9 witness: on the empty fresh buffer the slot at index `length` is `0`,
so the round trip is exact. -/
theorem C9_roundtrip_corrected_witness :
    shift_right1 (shift_left1 create).1 = create :=
  (C9_roundtrip_corrected create (by decide) (by decide)).2 (by decide)

/-- Iterated `push_left` (a proof-layer abbreviation for the fold
`copy_string` performs on the non-separator characters). -/
def pushAll (b : BigInt) (l : List Nat) : BigInt :=
  l.foldl (fun b d => (push_left b d).1) b

/-- The ten decimal digit characters. -/
def digitChars : List Char :=
  ['0', '1', '2', '3', '4', '5', '6', '7', '8', '9']

lemma digit_char_facts :
    ∀ c ∈ digitChars,
      digit_of_char c < 10 ∧ Nat.toDigits 10 (digit_of_char c) = [c] := by
  decide

/-- The skipping fold of `copy_string` is `pushAll` of the digit values of the
kept characters. -/
lemma foldl_skip_eq_pushAll :
    ∀ (t : List Char) (b : BigInt),
      t.foldl
        (fun b c => if is_sep c then b else (push_left b (digit_of_char c)).1)
        b
        = pushAll b ((t.filter (fun c => !is_sep c)).map digit_of_char) := by
  intro t
  induction t with
  | nil => intro b; rfl
  | cons c t ih =>
    intro b
    by_cases hc : is_sep c
    · simp only [List.foldl_cons, if_pos hc, List.filter_cons,
        Bool.not_eq_true', hc]
      simpa using ih b
    · simp only [List.foldl_cons, if_neg hc, List.filter_cons]
      rw [if_pos (by simp [hc])]
      simpa [pushAll] using ih (push_left b (digit_of_char c)).1

/-- What pushing a list of valid digits onto a non-full buffer does: the
capacity is unchanged, the length grows by the count, the pushed digits sit
at indices `length, length + 1, ...` in order, and every other slot is
untouched. -/
lemma pushAll_spec :
    ∀ (l : List Nat) (b : BigInt),
      (∀ d ∈ l, d < 10) → b.length + l.length ≤ b.capacity →
      (pushAll b l).capacity = b.capacity ∧
      (pushAll b l).length = b.length + l.length ∧
      (∀ j, j < b.length → (pushAll b l).digits j = b.digits j) ∧
      (∀ k, k < l.length → (pushAll b l).digits (b.length + k) = l.getD k 0) ∧
      (∀ j, b.length + l.length ≤ j → (pushAll b l).digits j = b.digits j) := by
  intro l
  induction l with
  | nil =>
    intro b _ _
    exact ⟨rfl, by simp [pushAll], fun j _ => rfl,
      fun k hk => absurd hk (by simp), fun j _ => rfl⟩
  | cons d l ih =>
    intro b hall hcap
    have hcap2 : b.length + (l.length + 1) ≤ b.capacity := hcap
    have hd : d < 10 := hall d (List.mem_cons_self d l)
    have hstep : push_left b d
        = ({ b with
              digits := Function.update b.digits b.length d,
              length := b.length + 1 }, none) := by
      unfold push_left check_digit
      rw [if_neg (by omega), if_pos (by simpa using hd)]
    have hrw : pushAll b (d :: l)
        = pushAll
            { b with
                digits := Function.update b.digits b.length d,
                length := b.length + 1 } l := by
      unfold pushAll
      rw [List.foldl_cons, hstep]
    obtain ⟨ihcap, ihlen, ihlow, ihmid, ihhigh⟩ :=
      ih { b with
            digits := Function.update b.digits b.length d,
            length := b.length + 1 }
        (fun e he => hall e (List.mem_cons_of_mem d he))
        (show b.length + 1 + l.length ≤ b.capacity by omega)
    refine ⟨?_, ?_, ?_, ?_, ?_⟩
    · rw [hrw]; exact ihcap
    · rw [hrw, ihlen]
      show b.length + 1 + l.length = b.length + (d :: l).length
      simp
      omega
    · intro j hj
      rw [hrw, ihlow j (show j < b.length + 1 by omega)]
      exact Function.update_noteq (by omega) _ _
    · intro k hk
      rw [hrw]
      cases k with
      | zero =>
        rw [ihlow (b.length + 0) (show b.length + 0 < b.length + 1 by omega)]
        show Function.update b.digits b.length d (b.length + 0)
            = (d :: l).getD 0 0
        simp
      | succ k =>
        have hk2 : k < l.length := by
          have hk3 : k + 1 < (d :: l).length := hk
          simpa using hk3
        have hmid2 := ihmid k hk2
        rw [List.getD_cons_succ,
          show b.length + (k + 1) = b.length + 1 + k by omega]
        exact hmid2
    · intro j hj
      have hj2 : b.length + (l.length + 1) ≤ j := hj
      rw [hrw, ihhigh j (show b.length + 1 + l.length ≤ j by omega)]
      exact Function.update_noteq (by omega) _ _

lemma getD_reverse {α : Type} (l : List α) (d : α) {j : Nat}
    (h : j < l.length) :
    l.reverse.getD j d = l.getD (l.length - 1 - j) d := by
  have h1 : j < l.reverse.length := by simpa using h
  rw [List.getD_eq_getElem l.reverse d h1,
    List.getD_eq_getElem l d (by omega), List.getElem_reverse]

lemma range_map_getD {α β : Type} (g : α → β) (d : α) :
    ∀ l : List α,
      (List.range l.length).map (fun k => g (l.getD k d)) = l.map g := by
  intro l
  induction l with
  | nil => rfl
  | cons a t ih =>
    simp only [List.length_cons, List.range_succ_eq_map, List.map_cons,
      List.getD_cons_zero, List.map_map]
    refine congrArg (g a :: ·) ?_
    have : ((fun k => g ((a :: t).getD k d)) ∘ Nat.succ)
        = fun k => g (t.getD k d) := by
      funext k
      simp [Function.comp, List.getD_cons_succ]
    rw [this, ih]

lemma flatten_map_singleton :
    ∀ l : List Char, (l.map (fun c => [c])).flatten = l := by
  intro l
  induction l with
  | nil => rfl
  | cons a t ih => simp [ih]

set_option maxRecDepth 32768 in
/-- C4 counterexample: the round trip is NOT exact for every digit string —
`copy_string` silently drops pushes past `capacity = 64`, so a 65-digit
string comes back 64 digits long. -/
theorem C4_roundtrip_drops_past_capacity :
    print (copy_string (List.replicate 65 '1'))
        ≠ (List.replicate 65 '1').filter (fun c => !is_sep c) := by
  decide

/-- C4 (amended): for every string of digit characters interleaved with
whitespace/underscore separators whose digit count fits in `capacity = 64`,
`print (copy_string s)` reproduces exactly the digit characters of `s` in
order (separators removed, leading zeros kept), and the parsed length equals
the number of digit characters.  (Digit strings longer than the capacity have
their most-significant digits silently dropped.) -/
theorem C4_roundtrip_corrected :
    ∀ s : List Char,
      (∀ c ∈ s, c ∈ digitChars ∨ is_sep c = true) →
      (s.filter (fun c => !is_sep c)).length ≤ 64 →
      print (copy_string s) = s.filter (fun c => !is_sep c) ∧
      (copy_string s).length = (s.filter (fun c => !is_sep c)).length := by
  intro s hs hlen
  set t := s.filter (fun c => !is_sep c) with ht
  have htmem : ∀ c ∈ t, c ∈ digitChars := by
    intro c hc
    rw [ht] at hc
    obtain ⟨hcs, hck⟩ := List.mem_filter.mp hc
    rcases hs c hcs with h | h
    · exact h
    · rw [h] at hck; simp at hck
  set M := t.map digit_of_char with hM
  have hfold : copy_string s = pushAll create M.reverse := by
    unfold copy_string
    rw [foldl_skip_eq_pushAll, List.filter_reverse, List.map_reverse]
  have hM10 : ∀ d ∈ M.reverse, d < 10 := by
    intro d hd
    rw [List.mem_reverse, hM] at hd
    obtain ⟨c, hc, hdc⟩ := List.mem_map.mp hd
    rw [← hdc]
    exact (digit_char_facts c (htmem c hc)).1
  have hMlen : M.reverse.length = t.length := by simp [hM]
  obtain ⟨hcap, hlength, _, hmid, _⟩ :=
    pushAll_spec M.reverse create hM10
      (by simpa [create, DIGITS_CAP, hMlen] using hlen)
  have hcl : create.length = 0 := rfl
  have hlen2 : (copy_string s).length = t.length := by
    rw [hfold, hlength, hMlen, hcl, Nat.zero_add]
  refine ⟨?_, hlen2⟩
  rw [hfold]
  unfold print
  rw [hlength, hMlen]
  simp only [hcl, Nat.zero_add]
  have hdig : ∀ k, k < t.length →
      (pushAll create M.reverse).digits (t.length - 1 - k)
        = M.getD k 0 := by
    intro k hk
    have h1 := hmid (t.length - 1 - k) (by rw [hMlen]; omega)
    rw [hcl, Nat.zero_add] at h1
    rw [h1, getD_reverse M 0 (by simp [hM]; omega)]
    congr 1
    simp [hM]
    omega
  have hmap : (List.range t.length).map
        (fun k => Nat.toDigits 10
          ((pushAll create M.reverse).digits (t.length - 1 - k)))
      = (List.range t.length).map
        (fun k => Nat.toDigits 10 (M.getD k 0)) := by
    refine List.map_congr_left ?_
    intro k hk
    rw [hdig k (List.mem_range.mp hk)]
  rw [hmap]
  have hMr : t.length = M.length := by simp [hM]
  rw [hMr, range_map_getD (fun v => Nat.toDigits 10 v) 0 M, hM,
    List.map_map]
  have : (fun v => Nat.toDigits 10 v) ∘ digit_of_char
      = fun c : Char => Nat.toDigits 10 (digit_of_char c) := rfl
  rw [this]
  have hchars : t.map (fun c => Nat.toDigits 10 (digit_of_char c))
      = t.map (fun c => [c]) :=
    List.map_congr_left (fun c hc => (digit_char_facts c (htmem c hc)).2)
  rw [hchars, flatten_map_singleton]

/-- C4 witness: the string `"1 2_3"` parses to the three digits `123` and
prints back `"123"`. -/
theorem C4_roundtrip_corrected_witness :
    print (copy_string ['1', ' ', '2', '_', '3'])
        = (['1', ' ', '2', '_', '3'].filter (fun c => !is_sep c)) ∧
    (copy_string ['1', ' ', '2', '_', '3']).length
        = (['1', ' ', '2', '_', '3'].filter (fun c => !is_sep c)).length :=
  C4_roundtrip_corrected ['1', ' ', '2', '_', '3'] (by decide) (by decide)

end big_int
